import Mathlib

/-!
Verification of the text-truncation and preview-composition core of the
responsive search-ad preview component (src/App.jsx).

Modelling conventions for the shallow embedding:
* JavaScript strings are lists of characters (`Str`), so `text.length`
  is `List.length` and `text.slice(0, e)` is `jsSliceTo`.
* `String.prototype.lastIndexOf` yields an integer, -1 when absent.
* `Math.floor(limit * 0.5)` for a natural-number `limit` is exact
  floating-point arithmetic and equals natural division `limit / 2`.
* A falsy string test (`!text`, `h || d`) is a test for the empty string.
-/

/-- JavaScript strings, modelled as lists of characters. -/
abbrev Str := List Char

/-- JavaScript `s.slice(0, e)`: a negative end index counts back from the
end of the string, and the result is clamped to the string. -/
def jsSliceTo (s : Str) (e : Int) : Str :=
  if e < 0 then s.take ((s.length : Int) + e).toNat else s.take e.toNat

/-- JavaScript `s.lastIndexOf(c)` for a one-character needle: the largest
index holding `c`, or -1 when `c` does not occur in `s`. -/
def lastIndexOf : Str → Char → Int
  | [], _ => -1
  | x :: xs, c =>
    if 0 ≤ lastIndexOf xs c then lastIndexOf xs c + 1
    else if x = c then 0 else -1

/-- The character class stripped by JavaScript `String.prototype.trim`:
WhiteSpace and LineTerminator code points. -/
def isJsWhitespace (c : Char) : Bool :=
  decide ((0x9 ≤ c.toNat ∧ c.toNat ≤ 0xD) ∨ c.toNat = 0x20 ∨ c.toNat = 0xA0 ∨
    c.toNat = 0x1680 ∨ (0x2000 ≤ c.toNat ∧ c.toNat ≤ 0x200A) ∨ c.toNat = 0x2028 ∨
    c.toNat = 0x2029 ∨ c.toNat = 0x202F ∨ c.toNat = 0x205F ∨ c.toNat = 0x3000 ∨
    c.toNat = 0xFEFF)

/-- JavaScript `s.trim()`: drop whitespace from both ends. -/
def jsTrim (s : Str) : Str :=
  ((s.dropWhile isJsWhitespace).reverse.dropWhile isJsWhitespace).reverse

/-- JavaScript `Array.prototype.join(sep)` on an array of strings. -/
def joinSep (sep : Str) : List Str → Str
  | [] => []
  | [x] => x
  | x :: y :: ys => x ++ (sep ++ joinSep sep (y :: ys))

/-- The `truncate` helper of `ResponsiveAdPreview` (src/App.jsx,
lines 21-31), translated clause by clause from the source. -/
def truncate (text : Str) (limit : Nat) : Str :=
  if text = [] then []
  else if text.length ≤ limit then text
  else
    let clipped := jsSliceTo text ((limit : Int) - 1)
    let lastSpace := lastIndexOf clipped ' '
    if lastSpace > ((limit / 2 : Nat) : Int) then
      jsSliceTo clipped lastSpace ++ ['…']
    else
      clipped ++ ['…']

/-- Headline character limit `HL_LIMIT` (src/App.jsx, line 10). -/
def HL_LIMIT : Nat := 30

/-- Description character limit `DESC_LIMIT` (src/App.jsx, line 11). -/
def DESC_LIMIT : Nat := 90

/-- The `getPreviewHeadline` helper (src/App.jsx, lines 34-42): filter the
headlines whose trim has positive length, fall back to the placeholder,
otherwise join with an em dash and truncate at `HL_LIMIT * 2 + 15`. -/
def getPreviewHeadline (headlines : List Str) : Str :=
  let nonEmpty := headlines.filter (fun h => decide (0 < (jsTrim h).length))
  if nonEmpty.length = 0 then "Your headline here".toList
  else truncate (joinSep (" — ".toList) nonEmpty) (HL_LIMIT * 2 + 15)

/-- The `getPreviewDescription` helper (src/App.jsx, lines 44-49). -/
def getPreviewDescription (descriptions : List Str) : Str :=
  let nonEmpty := descriptions.filter (fun d => decide (0 < (jsTrim d).length))
  if nonEmpty.length = 0 then "Your description will appear here.".toList
  else truncate (joinSep (" ".toList) nonEmpty) DESC_LIMIT

/-- JavaScript `s || d` on strings: `d` when `s` is empty (falsy). -/
def jsOrDefault (s d : Str) : Str := if s = [] then d else s

/-- Single-headline preview mode, show-all toggle off (src/App.jsx,
line 186): `truncate(headlines[0] || "Your headline here", HL_LIMIT)`;
a missing element reads as `undefined`, also falsy, hence `headD []`. -/
def singleHeadlinePreview (headlines : List Str) : Str :=
  truncate (jsOrDefault (headlines.headD []) ("Your headline here".toList)) HL_LIMIT

/-- Index of the last space of a string, when one exists. Support for
stating the spec-side truncation contract. -/
def lastSpaceIdx : Str → Option Nat
  | [] => none
  | x :: xs =>
    match lastSpaceIdx xs with
    | some i => some (i + 1)
    | none => if x = ' ' then some 0 else none

/-- The truncation contract exactly as the spec words it (§4.1): take the
first `limit - 1` characters as `clipped`, find the last space inside
`clipped`; when its index exceeds `limit / 2` return `clipped` up to (not
including) that space plus one ellipsis, otherwise `clipped` plus one
ellipsis. Stated independently of the source `truncate`, to be compared
with it. -/
def truncateAsSpecified (text : Str) (limit : Nat) : Str :=
  if text = [] then []
  else if text.length ≤ limit then text
  else
    let clipped := text.take (limit - 1)
    match lastSpaceIdx clipped with
    | some i =>
      if limit / 2 < i then clipped.take i ++ ['…'] else clipped ++ ['…']
    | none => clipped ++ ['…']

/-- The headline-composition contract as the spec words it (§4.2), with
the headline limit as a parameter: keep entries whose trimmed form is
non-empty, fall back to the placeholder, otherwise join with an em dash
and truncate at the effective limit `2 * headlineLimit + 15`. -/
def composeHeadlinePreview (headlineLimit : Nat) (headlines : List Str) : Str :=
  let survivors := headlines.filter (fun h => decide (jsTrim h ≠ []))
  if survivors = [] then "Your headline here".toList
  else truncate (joinSep (" — ".toList) survivors) (2 * headlineLimit + 15)

/-- The description-composition contract as the spec words it (§4.3):
keep entries whose trimmed form is non-empty, fall back to the
placeholder, otherwise join with a single space and truncate at the plain
description limit. -/
def composeDescriptionPreview (descriptionLimit : Nat) (descriptions : List Str) : Str :=
  let survivors := descriptions.filter (fun d => decide (jsTrim d ≠ []))
  if survivors = [] then "Your description will appear here.".toList
  else truncate (joinSep (" ".toList) survivors) descriptionLimit

/-! ## Supporting lemmas -/

theorem jsSliceTo_of_nonneg (s : Str) (e : Int) (h : 0 ≤ e) :
    jsSliceTo s e = s.take e.toNat := by
  simp [jsSliceTo, not_lt.mpr h]

theorem lastIndexOf_lt_length (s : Str) (c : Char) :
    lastIndexOf s c < (s.length : Int) := by
  induction s with
  | nil => simp [lastIndexOf]
  | cons x xs ih =>
    simp only [lastIndexOf, List.length_cons]
    split
    · push_cast
      omega
    · split
      · push_cast
        omega
      · push_cast
        omega

theorem truncate_of_length_le (s : Str) (l : Nat) (h : s.length ≤ l) :
    truncate s l = s := by
  by_cases hs : s = []
  · simp [truncate, hs]
  · simp [truncate, hs, h]

theorem truncate_length_le (s : Str) (l : Nat) (hl : 1 ≤ l) :
    (truncate s l).length ≤ l := by
  by_cases hs : s = []
  · simp [truncate, hs]
  by_cases hle : s.length ≤ l
  · simp [truncate, hs, if_pos hle]
    omega
  simp only [truncate, if_neg hs, if_neg hle]
  have he : (0 : Int) ≤ (l : Int) - 1 := by omega
  have hcl : jsSliceTo s ((l : Int) - 1) = s.take (l - 1) := by
    rw [jsSliceTo_of_nonneg s _ he]
    congr 1
    omega
  have hclen : (jsSliceTo s ((l : Int) - 1)).length = l - 1 := by
    rw [hcl, List.length_take]
    omega
  split
  · next hgt =>
    have h0 : (0 : Int) ≤ lastIndexOf (jsSliceTo s ((l : Int) - 1)) ' ' := by
      have : (0 : Int) ≤ ((l / 2 : Nat) : Int) := by positivity
      omega
    rw [jsSliceTo_of_nonneg _ _ h0, List.length_append, List.length_take]
    simp only [List.length_singleton]
    omega
  · rw [List.length_append]
    simp only [List.length_singleton]
    omega

theorem truncate_ne_nil (s : Str) (l : Nat) (hs : s ≠ []) :
    truncate s l ≠ [] := by
  simp only [truncate, if_neg hs]
  split
  · exact hs
  · split <;> simp

theorem lastIndexOf_space_eq (s : Str) :
    lastIndexOf s ' ' =
      (match lastSpaceIdx s with | some i => (i : Int) | none => -1) := by
  induction s with
  | nil => rfl
  | cons x xs ih =>
    simp only [lastIndexOf, lastSpaceIdx]
    cases h : lastSpaceIdx xs with
    | none =>
      rw [h] at ih
      simp only at ih
      rw [ih]
      norm_num
      by_cases hx : x = ' ' <;> simp [hx]
    | some i =>
      rw [h] at ih
      simp only at ih
      rw [ih]
      have : (0 : Int) ≤ (i : Int) := by positivity
      simp [this]

/-! ## Claim theorems -/

/-- C1: for `limit ≥ 1` and `text.length > limit`, the source `truncate`
agrees with the spec's word-boundary description (`truncateAsSpecified`):
it clips to the first `limit - 1` characters, finds the last space in the
clipped text, returns the clipped text up to (not including) that space
plus an ellipsis when the space index exceeds `floor(limit * 0.5)`, and
otherwise the clipped text plus the ellipsis; in particular
`truncate "Buy now and save today" 10 = "Buy now…"`. -/
theorem claim_C1 (text : Str) (limit : Nat) (h1 : 1 ≤ limit)
    (h2 : limit < text.length) :
    truncate text limit = truncateAsSpecified text limit ∧
    truncate ("Buy now and save today".toList) 10 = "Buy now…".toList := by
  refine ⟨?_, by decide⟩
  have hs : text ≠ [] := by
    intro he
    rw [he] at h2
    simp at h2
  have hle : ¬ text.length ≤ limit := by omega
  simp only [truncate, truncateAsSpecified, if_neg hs, if_neg hle]
  have hcl : jsSliceTo text ((limit : Int) - 1) = text.take (limit - 1) := by
    rw [jsSliceTo_of_nonneg text _ (by omega)]
    congr 1
    omega
  rw [hcl, lastIndexOf_space_eq]
  cases h : lastSpaceIdx (text.take (limit - 1)) with
  | none =>
    simp
    intro hcon
    exfalso
    omega
  | some i =>
    simp only [gt_iff_lt, Nat.cast_lt]
    by_cases hgt : limit / 2 < i
    · rw [if_pos hgt, if_pos hgt, jsSliceTo_of_nonneg _ _ (by positivity)]
      simp
    · rw [if_neg hgt, if_neg hgt]

/-- C1 witness: the theorem instantiated at the spec's worked example. -/
theorem claim_C1_witness :
    truncate ("Buy now and save today".toList) 10 =
      truncateAsSpecified ("Buy now and save today".toList) 10 ∧
    truncate ("Buy now and save today".toList) 10 = "Buy now…".toList :=
  claim_C1 ("Buy now and save today".toList) 10 (by decide) (by decide)

/-- C5: for `limit ≥ 1` and `text.length > limit`, the truncated string
has length at most `limit`. -/
theorem claim_C5 (text : Str) (limit : Nat) (h1 : 1 ≤ limit)
    (h2 : limit < text.length) :
    (truncate text limit).length ≤ limit :=
  truncate_length_le text limit h1

/-- C5 witness: the length bound at a concrete overflowing input. -/
theorem claim_C5_witness :
    (truncate ("Shop our top products with fast delivery.".toList) 20).length ≤ 20 :=
  claim_C5 ("Shop our top products with fast delivery.".toList) 20 (by decide)
    (by decide)

/-- C6: for `limit ≥ 1`, truncating the empty string gives the empty
string, and a string whose length is at most `limit` comes back unchanged
with no marker appended. -/
theorem claim_C6 (text : Str) (limit : Nat) (h1 : 1 ≤ limit)
    (h2 : text.length ≤ limit) :
    truncate [] limit = [] ∧ truncate text limit = text :=
  ⟨truncate_of_length_le [] limit (by simp), truncate_of_length_le text limit h2⟩

/-- C6 witness: the theorem instantiated at a short concrete string. -/
theorem claim_C6_witness :
    truncate [] 5 = [] ∧ truncate ("Buy".toList) 5 = "Buy".toList :=
  claim_C6 ("Buy".toList) 5 (by decide) (by decide)

/-- C7: truncating any string longer than one character at `limit = 1`
returns exactly the single ellipsis character. -/
theorem claim_C7 (text : Str) (h : 1 < text.length) :
    truncate text 1 = ['…'] := by
  have hs : text ≠ [] := by
    intro he
    rw [he] at h
    simp at h
  have hle : ¬ text.length ≤ 1 := by omega
  simp only [truncate, if_neg hs, if_neg hle]
  norm_num [jsSliceTo, lastIndexOf]

/-- C7 witness: the theorem instantiated at a two-character string. -/
theorem claim_C7_witness : truncate ("ab".toList) 1 = ['…'] :=
  claim_C7 ("ab".toList) (by decide)

/-- C8: truncate is idempotent for `limit ≥ 1`, because its output always
has length at most `limit` and such strings are returned unchanged. -/
theorem claim_C8 (text : Str) (limit : Nat) (h : 1 ≤ limit) :
    truncate (truncate text limit) limit = truncate text limit :=
  truncate_of_length_le _ _ (truncate_length_le text limit h)

/-- C8 witness: idempotence at a concrete overflowing input. -/
theorem claim_C8_witness :
    truncate (truncate ("Buy now and save today".toList) 10) 10 =
      truncate ("Buy now and save today".toList) 10 :=
  claim_C8 ("Buy now and save today".toList) 10 (by decide)

theorem joinSep_ne_nil (sep x : Str) (xs : List Str) (hx : x ≠ []) :
    joinSep sep (x :: xs) ≠ [] := by
  cases xs with
  | nil => simpa [joinSep] using hx
  | cons y ys => simp [joinSep, hx]

/-- C2: the source headline composition equals the spec's contract at the
headline limit 30: it keeps exactly the entries whose trimmed form is
non-empty in their original order (the kept list is a sublist of the
input), falls back to the placeholder when none survive, and otherwise
truncates the em-dash join at the effective limit 2 * 30 + 15 = 75. -/
theorem claim_C2 (headlines : List Str) :
    getPreviewHeadline headlines = composeHeadlinePreview HL_LIMIT headlines ∧
    (headlines.filter (fun h => decide (0 < (jsTrim h).length))).Sublist headlines ∧
    HL_LIMIT * 2 + 15 = 75 := by
  refine ⟨?_, List.filter_sublist headlines, by decide⟩
  have hfil : headlines.filter (fun h => decide (0 < (jsTrim h).length)) =
      headlines.filter (fun h => decide (jsTrim h ≠ [])) := by
    apply List.filter_congr
    intro x _
    simp [List.length_pos]
  simp only [getPreviewHeadline, composeHeadlinePreview, hfil]
  by_cases hc : headlines.filter (fun h => decide (jsTrim h ≠ [])) = []
  · have hlen : (headlines.filter (fun h => decide (jsTrim h ≠ []))).length = 0 := by
      rw [hc]
      rfl
    rw [if_pos hlen, if_pos hc]
  · have hlen : ¬ (headlines.filter (fun h => decide (jsTrim h ≠ []))).length = 0 :=
      fun h0 => hc (List.length_eq_zero.mp h0)
    rw [if_neg hlen, if_neg hc]
    norm_num [HL_LIMIT]

/-- C3: the source description composition equals the spec's contract at
the description limit 90: it keeps exactly the entries whose trimmed form
is non-empty in their original order (the kept list is a sublist of the
input), falls back to the placeholder when none survive, and otherwise
truncates the single-space join at the plain description limit. -/
theorem claim_C3 (descriptions : List Str) :
    getPreviewDescription descriptions =
      composeDescriptionPreview DESC_LIMIT descriptions ∧
    (descriptions.filter (fun d => decide (0 < (jsTrim d).length))).Sublist
      descriptions := by
  refine ⟨?_, List.filter_sublist descriptions⟩
  have hfil : descriptions.filter (fun d => decide (0 < (jsTrim d).length)) =
      descriptions.filter (fun d => decide (jsTrim d ≠ [])) := by
    apply List.filter_congr
    intro x _
    simp [List.length_pos]
  simp only [getPreviewDescription, composeDescriptionPreview, hfil]
  by_cases hc : descriptions.filter (fun d => decide (jsTrim d ≠ [])) = []
  · have hlen : (descriptions.filter (fun d => decide (jsTrim d ≠ []))).length = 0 := by
      rw [hc]
      rfl
    rw [if_pos hlen, if_pos hc]
  · have hlen : ¬ (descriptions.filter (fun d => decide (jsTrim d ≠ []))).length = 0 :=
      fun h0 => hc (List.length_eq_zero.mp h0)
    rw [if_neg hlen, if_neg hc]

/-- C4: every preview string stays within its governing limit plus one
marker character: 75 + 1 for the joined-headline preview, 30 + 1 for the
single-headline preview, 90 + 1 for the description preview. -/
theorem claim_C4 (headlines descriptions : List Str) :
    (getPreviewHeadline headlines).length ≤ HL_LIMIT * 2 + 15 + 1 ∧
    (singleHeadlinePreview headlines).length ≤ HL_LIMIT + 1 ∧
    (getPreviewDescription descriptions).length ≤ DESC_LIMIT + 1 := by
  refine ⟨?_, ?_, ?_⟩
  · simp only [getPreviewHeadline]
    split
    · decide
    · exact le_trans (truncate_length_le _ _ (by decide)) (by decide)
  · simp only [singleHeadlinePreview]
    exact le_trans (truncate_length_le _ _ (by decide)) (by decide)
  · simp only [getPreviewDescription]
    split
    · decide
    · exact le_trans (truncate_length_le _ _ (by decide)) (by decide)

/-- C9: in single-headline mode the placeholder is substituted only for
an exactly empty first headline: any non-empty first headline, even a
lone space, is passed to truncate (a lone space being displayed as-is),
while show-all mode filters a whitespace-only headline out and falls back
to the placeholder. -/
theorem claim_C9 (h : Str) (rest : List Str) (hne : h ≠ []) :
    singleHeadlinePreview (h :: rest) = truncate h HL_LIMIT ∧
    singleHeadlinePreview ([] :: rest) = "Your headline here".toList ∧
    singleHeadlinePreview ([' '] :: rest) = [' '] ∧
    getPreviewHeadline [[' '], [], []] = "Your headline here".toList := by
  refine ⟨?_, ?_, ?_, by decide⟩
  · simp [singleHeadlinePreview, jsOrDefault, hne]
  · simp only [singleHeadlinePreview, jsOrDefault, List.headD]
    norm_num
    exact truncate_of_length_le _ _ (by decide)
  · simp only [singleHeadlinePreview, jsOrDefault, List.headD]
    norm_num
    exact truncate_of_length_le _ _ (by decide)

/-- C9 witness: the theorem instantiated at a whitespace-only first
headline. -/
theorem claim_C9_witness :
    singleHeadlinePreview [[' ']] = truncate [' '] HL_LIMIT ∧
    singleHeadlinePreview [([] : Str)] = "Your headline here".toList ∧
    singleHeadlinePreview [[' ']] = [' '] ∧
    getPreviewHeadline [[' '], [], []] = "Your headline here".toList := by
  have := claim_C9 [' '] [] (by decide)
  simpa using this

/-- C10: the composed headline and description previews are never the
empty string: either a non-empty placeholder, or truncate applied to a
join that starts with a surviving, hence non-empty, entry. -/
theorem claim_C10 (headlines descriptions : List Str) :
    getPreviewHeadline headlines ≠ [] ∧ getPreviewDescription descriptions ≠ [] := by
  constructor
  · simp only [getPreviewHeadline]
    split
    · decide
    · next hlen =>
      cases hf : headlines.filter (fun h => decide (0 < (jsTrim h).length)) with
      | nil =>
        rw [hf] at hlen
        simp at hlen
      | cons z zs =>
        apply truncate_ne_nil
        apply joinSep_ne_nil
        have hz : z ∈ headlines.filter (fun h => decide (0 < (jsTrim h).length)) := by
          rw [hf]
          exact List.mem_cons_self z zs
        have hzp := (List.mem_filter.mp hz).2
        intro hznil
        rw [hznil] at hzp
        simp [jsTrim] at hzp
  · simp only [getPreviewDescription]
    split
    · decide
    · next hlen =>
      cases hf : descriptions.filter (fun d => decide (0 < (jsTrim d).length)) with
      | nil =>
        rw [hf] at hlen
        simp at hlen
      | cons z zs =>
        apply truncate_ne_nil
        apply joinSep_ne_nil
        have hz : z ∈ descriptions.filter (fun d => decide (0 < (jsTrim d).length)) := by
          rw [hf]
          exact List.mem_cons_self z zs
        have hzp := (List.mem_filter.mp hz).2
        intro hznil
        rw [hznil] at hzp
        simp [jsTrim] at hzp
